import Mathlib

/-!
Shallow embedding of `src/main.rs` of the `21ws-biodb-gc-content` repository
(a GC-content analyzer for FASTA files), together with proofs settling the
specification claims about it.

Modelling conventions:
* A base sequence (`record.seq()`, a `&[u8]`) is a `List ℕ` of byte values;
  the relevant byte constants are `b'A' = 65`, `b'C' = 67`, `b'G' = 71`,
  `b'T' = 84`, `b'N' = 78`.
* The `u64` / `usize` counters are modelled as `ℕ`.  Every counter in the
  program is bounded by the length of the in-memory sequence, so the 2^64
  wraparound point is unreachable and plain `ℕ` arithmetic is faithful;
  the one subtraction in the code (`self.sum -= …`) is modelled with
  truncated `ℕ` subtraction, and the proofs show it never underflows in the
  situations the claims are about.
* Floating point: `get_total_gc_content` returns `f64`, and the only source
  of a non-real value is the `0.0 / 0.0 = NaN` case (the numerator is at most
  the denominator, so a zero denominator forces a zero numerator and the
  `±inf` cases cannot arise).  The result is modelled as `F64 = nan | val ℚ`,
  with the division performed exactly over `ℚ`; the properties proved about
  it (exact endpoints `0` and `1`, membership in `[0,1]`) are stable under
  IEEE rounding because correctly rounded division is monotone and `0`, `1`
  and the integer operands involved are exactly representable.  The sliding
  window samples (`f32`) are modelled the same way; each comparison made in
  the theorems compares two runs of the same division, so exact rationals
  are adequate.
* A Rust panic (out-of-bounds slice index) is modelled as `none` of an
  `Option`-returning embedding.
-/

namespace GcContent

/-- The `struct BaseCount` of `src/main.rs` (five `u64` counters). -/
structure BaseCount where
  a : ℕ
  c : ℕ
  t : ℕ
  g : ℕ
  other : ℕ
deriving Repr, DecidableEq

/-- The all-zero tally produced by `BaseCount::default()`. -/
def BaseCount.default : BaseCount := ⟨0, 0, 0, 0, 0⟩

/-- Component-wise sum of two tallies (used to state the concatenation
homomorphism; not itself in the source). -/
def BaseCount.add (x y : BaseCount) : BaseCount :=
  ⟨x.a + y.a, x.c + y.c, x.t + y.t, x.g + y.g, x.other + y.other⟩

/-- One iteration of the `for base in record.seq()` loop body of
`count_bases`: the `match` classifying a byte and bumping one counter. -/
def classifyBase (count : BaseCount) (base : ℕ) : BaseCount :=
  if base = 65 then { count with a := count.a + 1 }
  else if base = 67 then { count with c := count.c + 1 }
  else if base = 84 then { count with t := count.t + 1 }
  else if base = 71 then { count with g := count.g + 1 }
  else { count with other := count.other + 1 }

/-- Embedding of `fn count_bases`: fold the classifying loop over the sequence starting
from the all-zero tally. -/
def count_bases (seq : List ℕ) : BaseCount :=
  seq.foldl classifyBase BaseCount.default

/-- Model of the `f64` values `get_total_gc_content` can return: either NaN
(from `0.0 / 0.0`) or an exact rational. -/
inductive F64 where
  | nan : F64
  | val : ℚ → F64
deriving Repr, DecidableEq

/-- Embedding of `fn get_total_gc_content`: `gc / (at + gc)` over the tally of the
sequence.  The Rust code divides unconditionally; since `gc ≤ at + gc`, the
denominator is zero exactly when both operands are zero, which under IEEE
semantics yields NaN — modelled by the explicit `F64.nan` branch.  A nonzero
denominator yields the exact quotient. -/
def get_total_gc_content (seq : List ℕ) : F64 :=
  let count := count_bases seq
  let at_ : ℚ := (count.a : ℚ) + (count.t : ℚ)
  let gc : ℚ := (count.g : ℚ) + (count.c : ℚ)
  if at_ + gc = 0 then F64.nan else F64.val (gc / (at_ + gc))

/-- GC contribution of one byte, as in the `match data[i] { b'G' | b'C' => 1,
_ => 0 }` expressions of `SlidingWindowAverage`. -/
def gcByte (b : ℕ) : ℕ := if b = 71 ∨ b = 67 then 1 else 0

/-- Total GC contribution of a list of bytes (brute-force re-scan). -/
def gcCount (l : List ℕ) : ℕ := (l.map gcByte).sum

/-- The window of `size` bytes of `data` starting at index `lo`:
`data[lo .. lo+size)`. -/
def window (data : List ℕ) (lo size : ℕ) : List ℕ :=
  (data.drop lo).take size

/-- The `struct SlidingWindowAverage` of `src/main.rs`.  The borrowed slice
`data: &[u8]` is the list of bytes; `sum`, `idx`, `step`, `size` are the
`u64`/`usize` fields. -/
structure SlidingWindowAverage where
  data : List ℕ
  sum : ℕ
  idx : ℕ
  step : ℕ
  size : ℕ
deriving Repr, DecidableEq

/-- The byte indices read by `SlidingWindowAverage::new` while summing the
first window: `data[i]` for `i in 0..size`. -/
def newReadIndices (size : ℕ) : List ℕ := List.range size

/-- Embedding of `SlidingWindowAverage::new`.  The Rust loop reads `data[i]` for
`i in 0..size` with no bounds check, so when `size > data.len()` it panics
with an out-of-bounds index (modelled as `none`); it never returns an error
value, and `step` is not inspected at all. -/
def SlidingWindowAverage.new (data : List ℕ) (size step : ℕ) :
    Option SlidingWindowAverage :=
  if size ≤ data.length then
    some { data := data
         , sum := (List.range size).foldl
             (fun acc i => acc + gcByte (data.getD i 0)) 0
         , idx := 0
         , step := step
         , size := size }
  else
    none

/-- The byte indices read by one successful `next()` call on state `s`:
`data[idx + i]` for `i in 0..step` (the subtracting loop) and
`data[idx + size + i]` for `i in 0..step` (the adding loop). -/
def nextReadIndices (s : SlidingWindowAverage) : List ℕ :=
  (List.range s.step).map (fun i => s.idx + i) ++
    (List.range s.step).map (fun i => s.idx + s.size + i)

/-- The value held by `self.sum` after the two loops of one `next()` call:
first the loop `for i in 0..step { self.sum -= … data[idx + i] … }`
(trailing bytes leave the window), then
`for i in 0..step { self.sum += … data[idx + size + i] … }` (leading bytes
enter).  The `u64` subtraction is truncated `ℕ` subtraction here; the
invariant proofs show the running sum always dominates what is subtracted,
so no underflow occurs in the situations the claims are about. -/
def newSum (s : SlidingWindowAverage) : ℕ :=
  (List.range s.step).foldl
    (fun acc i => acc + gcByte (s.data.getD (s.idx + s.size + i) 0))
    ((List.range s.step).foldl
      (fun acc i => acc - gcByte (s.data.getD (s.idx + i) 0)) s.sum)

/-- Embedding of `<SlidingWindowAverage as Iterator>::next`.  Mirrors the source: test
`idx + size + step < data.len() - 1` (truncated `ℕ` subtraction; `data.len()`
is never `0` in any situation the claims quantify over, since they assume
`0 < size ≤ data.len()`), update the running sum by the two loops of
`newSum`, advance `idx` by `step`, and emit `sum / size` (the `f32`
quotient, modelled exactly over `ℚ`). -/
def SlidingWindowAverage.next (s : SlidingWindowAverage) :
    Option (ℚ × SlidingWindowAverage) :=
  if s.idx + s.size + s.step < s.data.length - 1 then
    some ((newSum s : ℚ) / (s.size : ℚ),
          { s with sum := newSum s, idx := s.idx + s.step })
  else
    none

/-- The finite list of samples obtained by repeatedly calling `next` until it
returns `None`, with an explicit fuel bound (the iterator itself is proved to
exhaust within `data.length` calls whenever `0 < step`). -/
def samples (fuel : ℕ) (s : SlidingWindowAverage) : List ℚ :=
  match fuel with
  | 0 => []
  | Nat.succ fuel =>
    match s.next with
    | none => []
    | some (q, s1) => q :: samples fuel s1

/-- The `(x, y)` series handed by `fn plot` to the chart backend:
`(0..).step_by(STEP).zip(window_avg_iter)` — the infinite arithmetic
progression `0, step, 2·step, …` zipped with the finite sample stream, i.e.
the first `n` multiples of `step` paired with the `n` samples. -/
def plotSeries (data : List ℕ) (size step : ℕ) : Option (List (ℕ × ℚ)) :=
  (SlidingWindowAverage.new data size step).map (fun s0 =>
    let ys := samples (data.length + 1) s0
    (((List.range ys.length).map (fun i => i * step)).zip ys))

/-- The lines printed to stdout by `fn main` for one successfully parsed
record: only the header line `[<id>] <description>`.  The line
`  - GC Content: {:.2}%` is commented out in the source (and the commented
call names a function `get_gc_content` that does not exist). -/
def recordTextOutput (id desc : String) : List String :=
  ["[" ++ id ++ "] " ++ desc]

/-! ### Basic facts about `count_bases` -/

/-- The five counters of a tally, summed. -/
def BaseCount.total (c : BaseCount) : ℕ := c.a + c.c + c.t + c.g + c.other

lemma classifyBase_total (c : BaseCount) (b : ℕ) :
    (classifyBase c b).total = c.total + 1 := by
  unfold classifyBase BaseCount.total
  split_ifs <;> simp <;> omega

lemma foldl_classifyBase_total (l : List ℕ) :
    ∀ c : BaseCount, (l.foldl classifyBase c).total = c.total + l.length := by
  induction l with
  | nil => simp
  | cons x l ih =>
    intro c
    simp only [List.foldl_cons, ih, classifyBase_total, List.length_cons]
    omega

lemma BaseCount.add_default (c : BaseCount) : c.add BaseCount.default = c := by
  simp [BaseCount.add, BaseCount.default]

lemma BaseCount.add_assoc (x y z : BaseCount) :
    (x.add y).add z = x.add (y.add z) := by
  simp [BaseCount.add, Nat.add_assoc]

lemma classifyBase_eq_add (c : BaseCount) (b : ℕ) :
    classifyBase c b = c.add (classifyBase BaseCount.default b) := by
  unfold classifyBase
  split_ifs <;> simp [BaseCount.add, BaseCount.default]

lemma foldl_classifyBase_add (l : List ℕ) :
    ∀ c : BaseCount, l.foldl classifyBase c = c.add (count_bases l) := by
  induction l with
  | nil => intro c; simp [count_bases, BaseCount.add_default]
  | cons x l ih =>
    intro c
    have hc : count_bases (x :: l) =
        (classifyBase BaseCount.default x).add (count_bases l) := by
      simp only [count_bases, List.foldl_cons]
      rw [ih (classifyBase BaseCount.default x)]
      rfl
    simp only [List.foldl_cons]
    rw [ih (classifyBase c x), hc, classifyBase_eq_add c x,
      BaseCount.add_assoc]

lemma count_bases_cons (x : ℕ) (l : List ℕ) :
    count_bases (x :: l) =
      (classifyBase BaseCount.default x).add (count_bases l) := by
  simp only [count_bases, List.foldl_cons]
  rw [foldl_classifyBase_add l (classifyBase BaseCount.default x)]
  rfl

lemma count_bases_all_gc (s : List ℕ) (h : ∀ b ∈ s, b = 71 ∨ b = 67) :
    (count_bases s).a = 0 ∧ (count_bases s).t = 0 ∧
      (count_bases s).g + (count_bases s).c = s.length := by
  induction s with
  | nil => simp [count_bases, BaseCount.default]
  | cons x l ih =>
    have hx := h x (List.mem_cons_self x l)
    have ihl := ih (fun b hb => h b (List.mem_cons_of_mem x hb))
    rw [count_bases_cons]
    rcases hx with hx | hx <;>
      simp [hx, classifyBase, BaseCount.default, BaseCount.add] <;> omega

lemma count_bases_all_at (s : List ℕ) (h : ∀ b ∈ s, b = 65 ∨ b = 84) :
    (count_bases s).g = 0 ∧ (count_bases s).c = 0 ∧
      (count_bases s).a + (count_bases s).t = s.length := by
  induction s with
  | nil => simp [count_bases, BaseCount.default]
  | cons x l ih =>
    have hx := h x (List.mem_cons_self x l)
    have ihl := ih (fun b hb => h b (List.mem_cons_of_mem x hb))
    rw [count_bases_cons]
    rcases hx with hx | hx <;>
      simp [hx, classifyBase, BaseCount.default, BaseCount.add] <;> omega

/-! ### Claim C5 -/

/-- C5: for every byte sequence `s`, the tally of `count_bases` satisfies
`a + c + t + g + other = length s` — every byte lands in exactly one of the
five categories, none skipped or double-counted — and the empty sequence
yields the all-zero tally. -/
theorem count_bases_total_eq_length (s : List ℕ) :
    (count_bases s).a + (count_bases s).c + (count_bases s).t +
        (count_bases s).g + (count_bases s).other = s.length ∧
      count_bases [] = ⟨0, 0, 0, 0, 0⟩ := by
  refine ⟨?_, rfl⟩
  have h := foldl_classifyBase_total s BaseCount.default
  simp only [BaseCount.total, BaseCount.default, count_bases] at h ⊢
  omega

/-! ### Claim C8 -/

/-- C8: `count_bases` is a homomorphism for concatenation — on any
prefix/suffix split the tally of the whole is the component-wise sum of the
tallies of the parts — and it is a pure function, hence deterministic under
recomputation. -/
theorem count_bases_append_hom (u v : List ℕ) :
    count_bases (u ++ v) = (count_bases u).add (count_bases v) ∧
      ∀ s1 s2 : List ℕ, s1 = s2 → count_bases s1 = count_bases s2 := by
  constructor
  · simp only [count_bases, List.foldl_append]
    rw [foldl_classifyBase_add v (u.foldl classifyBase BaseCount.default)]
    rfl
  · intro s1 s2 h
    rw [h]

/-! ### Claims C6 and C7 -/

lemma get_total_gc_content_pos (s : List ℕ)
    (h : 0 < (count_bases s).a + (count_bases s).t +
        (count_bases s).g + (count_bases s).c) :
    get_total_gc_content s =
      F64.val ((((count_bases s).g : ℚ) + ((count_bases s).c : ℚ)) /
        ((((count_bases s).a : ℚ) + ((count_bases s).t : ℚ)) +
          (((count_bases s).g : ℚ) + ((count_bases s).c : ℚ)))) := by
  have h0 : (0 : ℚ) < ((count_bases s).a : ℚ) + ((count_bases s).t : ℚ) +
      ((count_bases s).g : ℚ) + ((count_bases s).c : ℚ) := by
    exact_mod_cast h
  have hne : (((count_bases s).a : ℚ) + ((count_bases s).t : ℚ)) +
      (((count_bases s).g : ℚ) + ((count_bases s).c : ℚ)) ≠ 0 := by
    intro hz
    linarith
  simp only [get_total_gc_content]
  rw [if_neg hne]

lemma get_total_gc_content_zero (s : List ℕ)
    (h : (count_bases s).a + (count_bases s).t +
        (count_bases s).g + (count_bases s).c = 0) :
    get_total_gc_content s = F64.nan := by
  have ha : (count_bases s).a = 0 := by omega
  have ht : (count_bases s).t = 0 := by omega
  have hg : (count_bases s).g = 0 := by omega
  have hc : (count_bases s).c = 0 := by omega
  simp only [get_total_gc_content, ha, ht, hg, hc]
  norm_num

/-- C6: the whole-sequence GC ratio is `(g + c) / (a + t + g + c)` over the
tally (the `other` category excluded from numerator and denominator); when
the denominator is positive the value lies in `[0, 1]`; a nonempty sequence
of only `G`/`C` bytes gives exactly `1`, and one of only `A`/`T` bytes gives
exactly `0`. -/
theorem gc_ratio_formula_and_bounds (s : List ℕ) :
    (∀ q : ℚ, get_total_gc_content s = F64.val q →
        q = ((((count_bases s).g + (count_bases s).c : ℕ)) : ℚ) /
          ((((count_bases s).a + (count_bases s).t +
            (count_bases s).g + (count_bases s).c : ℕ)) : ℚ)) ∧
    (0 < (count_bases s).a + (count_bases s).t +
        (count_bases s).g + (count_bases s).c →
      ∃ q : ℚ, get_total_gc_content s = F64.val q ∧ 0 ≤ q ∧ q ≤ 1) ∧
    (s ≠ [] → (∀ b ∈ s, b = 71 ∨ b = 67) →
      get_total_gc_content s = F64.val 1) ∧
    (s ≠ [] → (∀ b ∈ s, b = 65 ∨ b = 84) →
      get_total_gc_content s = F64.val 0) := by
  refine ⟨?_, ?_, ?_, ?_⟩
  · intro q hq
    by_cases hpos : 0 < (count_bases s).a + (count_bases s).t +
        (count_bases s).g + (count_bases s).c
    · rw [get_total_gc_content_pos s hpos] at hq
      injection hq with hq
      rw [← hq]
      push_cast
      ring_nf
    · rw [get_total_gc_content_zero s (by omega)] at hq
      exact F64.noConfusion hq
  · intro hpos
    refine ⟨_, get_total_gc_content_pos s hpos, ?_, ?_⟩
    · apply div_nonneg <;> positivity
    · have hd : (0 : ℚ) < (((count_bases s).a : ℚ) + ((count_bases s).t : ℚ)) +
          (((count_bases s).g : ℚ) + ((count_bases s).c : ℚ)) := by
        have h0 : (0 : ℚ) < (((count_bases s).a + (count_bases s).t +
            (count_bases s).g + (count_bases s).c : ℕ) : ℚ) := by
          exact_mod_cast hpos
        push_cast at h0
        linarith
      rw [div_le_one hd]
      have h1 : (0 : ℚ) ≤ ((count_bases s).a : ℚ) := Nat.cast_nonneg _
      have h2 : (0 : ℚ) ≤ ((count_bases s).t : ℚ) := Nat.cast_nonneg _
      linarith
  · intro hne hall
    obtain ⟨ha, ht, hgc⟩ := count_bases_all_gc s hall
    have hlen : 0 < s.length := List.length_pos.mpr hne
    have hpos : 0 < (count_bases s).a + (count_bases s).t +
        (count_bases s).g + (count_bases s).c := by omega
    have hgcq : (0 : ℚ) < ((count_bases s).g : ℚ) + ((count_bases s).c : ℚ) := by
      have h0 : 0 < (count_bases s).g + (count_bases s).c := by omega
      exact_mod_cast h0
    rw [get_total_gc_content_pos s hpos, ha, ht]
    norm_num
    exact div_self (ne_of_gt hgcq)
  · intro hne hall
    obtain ⟨hg, hc, hat⟩ := count_bases_all_at s hall
    have hlen : 0 < s.length := List.length_pos.mpr hne
    have hpos : 0 < (count_bases s).a + (count_bases s).t +
        (count_bases s).g + (count_bases s).c := by omega
    rw [get_total_gc_content_pos s hpos, hg, hc]
    norm_num

/-- Witness for C6 at concrete inputs: `"GC"` gives exactly `1`, `"AT"`
gives exactly `0`, and `"GCAT"` gives a value in `[0, 1]`. -/
theorem gc_ratio_formula_and_bounds_witness :
    get_total_gc_content [71, 67] = F64.val 1 ∧
      get_total_gc_content [65, 84] = F64.val 0 ∧
      ∃ q : ℚ, get_total_gc_content [71, 67, 65, 84] = F64.val q ∧
        0 ≤ q ∧ q ≤ 1 :=
  ⟨(gc_ratio_formula_and_bounds [71, 67]).2.2.1 (by decide) (by decide),
   (gc_ratio_formula_and_bounds [65, 84]).2.2.2 (by decide) (by decide),
   (gc_ratio_formula_and_bounds [71, 67, 65, 84]).2.1 (by decide)⟩

/-- C7 (code-bug evidence): on a denominator-zero sequence the code performs
`0.0 / 0.0` and returns plain NaN — the return type is a bare float, nothing
optional, so the undefined case is not surfaced explicitly; it is also never
a numeric `0` or `1`.  The concrete failing input is `"NNNNNNNN"`. -/
theorem gc_ratio_nan_on_all_n :
    get_total_gc_content (List.replicate 8 78) = F64.nan ∧
      ∀ s : List ℕ,
        (count_bases s).a + (count_bases s).t +
            (count_bases s).g + (count_bases s).c = 0 →
          get_total_gc_content s = F64.nan :=
  ⟨get_total_gc_content_zero (List.replicate 8 78) (by decide),
   fun s hz => get_total_gc_content_zero s hz⟩

/-- Witness for C7's universally quantified part at the concrete input
`"NNNN"`. -/
theorem gc_ratio_nan_on_all_n_witness :
    ((count_bases (List.replicate 4 78)).a +
        (count_bases (List.replicate 4 78)).t +
        (count_bases (List.replicate 4 78)).g +
        (count_bases (List.replicate 4 78)).c = 0) ∧
      get_total_gc_content (List.replicate 4 78) = F64.nan :=
  ⟨by decide, gc_ratio_nan_on_all_n.2 (List.replicate 4 78) (by decide)⟩

/-! ### Sliding-window machinery -/

lemma gcCount_append (a b : List ℕ) :
    gcCount (a ++ b) = gcCount a + gcCount b := by
  simp [gcCount]

lemma window_succ (data : List ℕ) (lo n : ℕ) (h : lo + n < data.length) :
    window data lo (n + 1) = window data lo n ++ [data.getD (lo + n) 0] := by
  unfold window
  rw [List.take_succ]
  congr 1
  rw [List.getElem?_drop, List.getElem?_eq_getElem h,
    List.getD_eq_getElem data 0 h]
  rfl

lemma window_split (data : List ℕ) (lo m n : ℕ) :
    window data lo (m + n) = window data lo m ++ window data (lo + m) n := by
  unfold window
  rw [List.take_add, List.drop_drop]

lemma foldl_add_gc (data : List ℕ) (lo : ℕ) :
    ∀ (n acc : ℕ), lo + n ≤ data.length →
      (List.range n).foldl (fun a i => a + gcByte (data.getD (lo + i) 0)) acc
        = acc + gcCount (window data lo n) := by
  intro n
  induction n with
  | zero => intro acc _; simp [window, gcCount]
  | succ n ih =>
    intro acc h
    rw [List.range_succ, List.foldl_append, ih acc (by omega)]
    simp only [List.foldl_cons, List.foldl_nil]
    rw [window_succ data lo n (by omega), gcCount_append]
    simp [gcCount]
    omega

lemma foldl_sub_gc (data : List ℕ) (lo : ℕ) :
    ∀ (n acc : ℕ), lo + n ≤ data.length →
      (List.range n).foldl (fun a i => a - gcByte (data.getD (lo + i) 0)) acc
        = acc - gcCount (window data lo n) := by
  intro n
  induction n with
  | zero => intro acc _; simp [window, gcCount]
  | succ n ih =>
    intro acc h
    rw [List.range_succ, List.foldl_append, ih acc (by omega)]
    simp only [List.foldl_cons, List.foldl_nil]
    rw [window_succ data lo n (by omega), gcCount_append]
    simp [gcCount]
    omega

/-- The state invariant of the sliding-window iterator: the parameters are
in range and the running sum is the true GC count of the bytes of the window
`[idx, idx + size)`. -/
def Inv (s : SlidingWindowAverage) : Prop :=
  0 < s.step ∧ s.step ≤ s.size ∧ s.idx + s.size ≤ s.data.length ∧
    s.sum = gcCount (window s.data s.idx s.size)

lemma new_eq_some (data : List ℕ) (size step : ℕ) (h : size ≤ data.length) :
    SlidingWindowAverage.new data size step =
      some ⟨data, gcCount (window data 0 size), 0, step, size⟩ := by
  unfold SlidingWindowAverage.new
  rw [if_pos h]
  have hf := foldl_add_gc data 0 size 0 (by omega)
  simp only [Nat.zero_add] at hf
  rw [hf]

lemma inv_new (data : List ℕ) (size step : ℕ) (h1 : 0 < step)
    (h2 : step ≤ size) (h3 : size ≤ data.length) :
    ∀ s0, SlidingWindowAverage.new data size step = some s0 → Inv s0 := by
  intro s0 hs
  rw [new_eq_some data size step h3] at hs
  injection hs with hs
  subst hs
  exact ⟨h1, h2, by simpa using h3, rfl⟩

lemma next_eq_none (s : SlidingWindowAverage)
    (hg : ¬ s.idx + s.size + s.step < s.data.length - 1) : s.next = none := by
  unfold SlidingWindowAverage.next
  rw [if_neg hg]

lemma next_eq_some (s : SlidingWindowAverage) (hInv : Inv s)
    (hg : s.idx + s.size + s.step < s.data.length - 1) :
    s.next = some
      ((gcCount (window s.data (s.idx + s.step) s.size) : ℚ) / (s.size : ℚ),
       { s with sum := gcCount (window s.data (s.idx + s.step) s.size),
                idx := s.idx + s.step }) := by
  obtain ⟨hstep, hss, hbound, hsum⟩ := hInv
  have hlen : s.idx + s.size + s.step + 2 ≤ s.data.length := by omega
  have h1 : (List.range s.step).foldl
      (fun a i => a - gcByte (s.data.getD (s.idx + i) 0)) s.sum
        = s.sum - gcCount (window s.data s.idx s.step) :=
    foldl_sub_gc s.data s.idx s.step s.sum (by omega)
  have h2 : ∀ acc, (List.range s.step).foldl
      (fun a i => a + gcByte (s.data.getD (s.idx + s.size + i) 0)) acc
        = acc + gcCount (window s.data (s.idx + s.size) s.step) :=
    fun acc => foldl_add_gc s.data (s.idx + s.size) s.step acc (by omega)
  have hsplit1 : window s.data s.idx s.size =
      window s.data s.idx s.step ++
        window s.data (s.idx + s.step) (s.size - s.step) := by
    have e : s.step + (s.size - s.step) = s.size := by omega
    conv_lhs => rw [← e]
    exact window_split s.data s.idx s.step (s.size - s.step)
  have hsplit2 : window s.data (s.idx + s.step) s.size =
      window s.data (s.idx + s.step) (s.size - s.step) ++
        window s.data (s.idx + s.size) s.step := by
    have hs2 := window_split s.data (s.idx + s.step) (s.size - s.step) s.step
    have e1 : (s.size - s.step) + s.step = s.size := by omega
    have e2 : (s.idx + s.step) + (s.size - s.step) = s.idx + s.size := by omega
    rw [e1, e2] at hs2
    exact hs2
  have hsum2 : s.sum - gcCount (window s.data s.idx s.step) +
      gcCount (window s.data (s.idx + s.size) s.step)
        = gcCount (window s.data (s.idx + s.step) s.size) := by
    rw [hsum, hsplit1, gcCount_append, hsplit2, gcCount_append]
    omega
  have hnew : newSum s = gcCount (window s.data (s.idx + s.step) s.size) := by
    unfold newSum
    rw [h1, h2]
    exact hsum2
  unfold SlidingWindowAverage.next
  rw [if_pos hg, hnew]

/-- Ingredients of a successful `next` call on an invariant-satisfying
state: the invariant is preserved, the left edge advances by `step`, and the
emitted sample is the brute-force GC ratio of the new window. -/
lemma inv_step (s : SlidingWindowAverage) (hInv : Inv s) (q : ℚ)
    (s1 : SlidingWindowAverage) (h : s.next = some (q, s1)) :
    Inv s1 ∧ s1.data = s.data ∧ s1.size = s.size ∧ s1.step = s.step ∧
      s1.idx = s.idx + s.step ∧
      s1.sum = gcCount (window s.data (s.idx + s.step) s.size) ∧
      q = (gcCount (window s.data (s.idx + s.step) s.size) : ℚ) /
        (s.size : ℚ) := by
  by_cases hg : s.idx + s.size + s.step < s.data.length - 1
  · rw [next_eq_some s hInv hg] at h
    injection h with hpair
    injection hpair with hq hs1
    subst hq
    subst hs1
    obtain ⟨hstep, hss, hbound, hsum⟩ := hInv
    refine ⟨⟨hstep, hss, ?_, rfl⟩, rfl, rfl, rfl, rfl, rfl, rfl⟩
    show s.idx + s.step + s.size ≤ s.data.length
    omega
  · rw [next_eq_none s hg] at h
    exact absurd h (by simp)

lemma next_guard_some (s : SlidingWindowAverage)
    (hg : s.idx + s.size + s.step < s.data.length - 1) :
    s.next = some ((newSum s : ℚ) / (s.size : ℚ),
      { s with sum := newSum s, idx := s.idx + s.step }) := by
  unfold SlidingWindowAverage.next
  rw [if_pos hg]

lemma next_emits_sum_div_size (s : SlidingWindowAverage) (q : ℚ)
    (s1 : SlidingWindowAverage) (h : s.next = some (q, s1)) :
    q = (s1.sum : ℚ) / (s1.size : ℚ) := by
  by_cases hg : s.idx + s.size + s.step < s.data.length - 1
  · rw [next_guard_some s hg] at h
    injection h with hpair
    injection hpair with hq hs1
    rw [← hs1, ← hq]
  · rw [next_eq_none s hg] at h
    exact absurd h (by simp)

lemma samples_stable (fuel1 : ℕ) :
    ∀ (s : SlidingWindowAverage) (fuel2 : ℕ), 0 < s.step →
      s.data.length - s.idx ≤ fuel1 → s.data.length - s.idx ≤ fuel2 →
      samples fuel1 s = samples fuel2 s := by
  induction fuel1 with
  | zero =>
    intro s fuel2 hstep hm1 hm2
    have hg : ¬ s.idx + s.size + s.step < s.data.length - 1 := by omega
    cases fuel2 with
    | zero => rfl
    | succ f2 => simp [samples, next_eq_none s hg]
  | succ f ih =>
    intro s fuel2 hstep hm1 hm2
    by_cases hg : s.idx + s.size + s.step < s.data.length - 1
    · have hn := next_guard_some s hg
      cases fuel2 with
      | zero => exfalso; omega
      | succ f2 =>
        simp only [samples, hn]
        congr 1
        exact ih _ f2 hstep
          (by show s.data.length - (s.idx + s.step) ≤ f; omega)
          (by show s.data.length - (s.idx + s.step) ≤ f2; omega)
    · cases fuel2 with
      | zero => simp [samples, next_eq_none s hg]
      | succ f2 => simp [samples, next_eq_none s hg]

/-- Natural-number mirror of `samples`: records each emitted sample numerator
(the running sum) and denominator (the window size) before the final
division; it lets concrete runs be evaluated by `decide` over `ℕ` alone,
with the single `ℚ` division applied afterwards through
`samples_eq_map_samplesN`. -/
def samplesN (fuel : ℕ) (s : SlidingWindowAverage) : List (ℕ × ℕ) :=
  match fuel with
  | 0 => []
  | Nat.succ fuel =>
    match s.next with
    | none => []
    | some (_, s1) => (s1.sum, s1.size) :: samplesN fuel s1

lemma samples_eq_map_samplesN (fuel : ℕ) :
    ∀ s, samples fuel s =
      (samplesN fuel s).map (fun p => (p.1 : ℚ) / (p.2 : ℚ)) := by
  induction fuel with
  | zero => intro s; rfl
  | succ f ih =>
    intro s
    cases hn : s.next with
    | none => simp [samples, samplesN, hn]
    | some qs =>
      obtain ⟨q, s1⟩ := qs
      have hq := next_emits_sum_div_size s q s1 hn
      simp [samples, samplesN, hn, ih s1, hq]

lemma samples_getElem? (fuel : ℕ) :
    ∀ (s : SlidingWindowAverage), Inv s → ∀ i : ℕ,
      i < (samples fuel s).length →
      (samples fuel s)[i]? = some
        ((gcCount (window s.data (s.idx + (i + 1) * s.step) s.size) : ℚ) /
          (s.size : ℚ)) := by
  induction fuel with
  | zero => intro s _ i h; simp [samples] at h
  | succ f ih =>
    intro s hInv i h
    cases hn : s.next with
    | none => simp [samples, hn] at h
    | some qs =>
      obtain ⟨q, s1⟩ := qs
      obtain ⟨hInv1, hdata, hsize, hstepeq, hidx, hsum, hq⟩ :=
        inv_step s hInv q s1 hn
      have hsamp : samples (f + 1) s = q :: samples f s1 := by
        simp [samples, hn]
      rw [hsamp] at h ⊢
      cases i with
      | zero =>
        simp only [List.getElem?_cons_zero]
        rw [hq]
        norm_num
      | succ j =>
        simp only [List.getElem?_cons_succ]
        have hj : j < (samples f s1).length := by simpa using h
        rw [ih s1 hInv1 j hj, hdata, hsize, hstepeq, hidx]
        have e : s.idx + s.step + (j + 1) * s.step =
            s.idx + (j + 1 + 1) * s.step := by ring
        rw [e]

lemma getElem?_zip {α β : Type} :
    ∀ (xs : List α) (ys : List β) (i : ℕ) (a : α) (b : β),
      xs[i]? = some a → ys[i]? = some b → (xs.zip ys)[i]? = some (a, b) := by
  intro xs
  induction xs with
  | nil => intro ys i a b hx _; simp at hx
  | cons x xs ih =>
    intro ys i a b hx hy
    cases ys with
    | nil => simp at hy
    | cons y ys =>
      cases i with
      | zero =>
        simp only [List.getElem?_cons_zero, Option.some.injEq] at hx hy
        simp [List.zip_cons_cons, hx, hy]
      | succ j =>
        simp only [List.getElem?_cons_succ] at hx hy
        simp only [List.zip_cons_cons, List.getElem?_cons_succ]
        exact ih ys j a b hx hy

/-! ### Claim C1 -/

/-- C1: under `0 < step ≤ window_size ≤ length data`, the incremental
series refines the brute-force re-scan: the state produced by `new`
satisfies the running-sum invariant `Inv` (its sum is the true GC count of
the bytes in `[left_edge, left_edge + window_size)`), every successful
`next` preserves `Inv`, and every emitted sample equals the GC count of its
window divided by the window size. -/
theorem sliding_window_refines_bruteforce (data : List ℕ) (size step : ℕ)
    (h1 : 0 < step) (h2 : step ≤ size) (h3 : size ≤ data.length) :
    (∀ s0, SlidingWindowAverage.new data size step = some s0 →
      Inv s0 ∧ s0.sum = gcCount (window data 0 size)) ∧
    (∀ s : SlidingWindowAverage, Inv s → ∀ q s1, s.next = some (q, s1) →
      Inv s1 ∧ s1.sum = gcCount (window s1.data s1.idx s1.size) ∧
        q = (gcCount (window s1.data s1.idx s1.size) : ℚ) / (s1.size : ℚ)) := by
  constructor
  · intro s0 hs
    refine ⟨inv_new data size step h1 h2 h3 s0 hs, ?_⟩
    rw [new_eq_some data size step h3] at hs
    injection hs with hs
    subst hs
    rfl
  · intro s hInv q s1 hn
    obtain ⟨hInv1, hdata, hsize, hstepeq, hidx, hsum, hq⟩ :=
      inv_step s hInv q s1 hn
    refine ⟨hInv1, hInv1.2.2.2, ?_⟩
    rw [hdata, hsize, hidx]
    exact hq

/-- Witness for C1 at the concrete input `"GCATGC"` with `size = 3`,
`step = 1`. -/
theorem sliding_window_refines_bruteforce_witness :
    (0 < 1 ∧ 1 ≤ 3 ∧ 3 ≤ ([71, 67, 65, 84, 71, 67] : List ℕ).length) ∧
      ((∀ s0, SlidingWindowAverage.new [71, 67, 65, 84, 71, 67] 3 1 =
          some s0 →
        Inv s0 ∧ s0.sum = gcCount (window [71, 67, 65, 84, 71, 67] 0 3)) ∧
      (∀ s : SlidingWindowAverage, Inv s → ∀ q s1, s.next = some (q, s1) →
        Inv s1 ∧ s1.sum = gcCount (window s1.data s1.idx s1.size) ∧
          q = (gcCount (window s1.data s1.idx s1.size) : ℚ) /
            (s1.size : ℚ))) :=
  ⟨⟨by decide, by decide, by decide⟩,
   sliding_window_refines_bruteforce [71, 67, 65, 84, 71, 67] 3 1
     (by decide) (by decide) (by decide)⟩

/-! ### Claim C4 -/

/-- C4: under `0 < step ≤ window_size ≤ length data`, every byte index read
by the series — those of the first-window summation in `new` and those of
the two loops of every successful `next` on an invariant state — is
strictly below `length data`, and the sample stream is exhausted within
`length data` iterations (more fuel never yields more samples, i.e. the
iterator returns `None` after finitely many samples). -/
theorem sliding_window_safety (data : List ℕ) (size step : ℕ)
    (h1 : 0 < step) (h2 : step ≤ size) (h3 : size ≤ data.length) :
    (∀ i ∈ newReadIndices size, i < data.length) ∧
    (∀ s : SlidingWindowAverage, s.data = data → Inv s →
      ∀ q s1, s.next = some (q, s1) →
        ∀ i ∈ nextReadIndices s, i < data.length) ∧
    (∃ s0, SlidingWindowAverage.new data size step = some s0 ∧
      ∀ extra, samples (data.length + extra) s0 = samples data.length s0) := by
  refine ⟨?_, ?_, ?_⟩
  · intro i hi
    rw [newReadIndices, List.mem_range] at hi
    omega
  · intro s hdata hInv q s1 hn i hi
    have hg : s.idx + s.size + s.step < s.data.length - 1 := by
      by_contra hgn
      rw [next_eq_none s hgn] at hn
      exact absurd hn (by simp)
    rw [← hdata]
    rw [nextReadIndices, List.mem_append] at hi
    rcases hi with hi | hi <;>
      · rw [List.mem_map] at hi
        obtain ⟨j, hj, rfl⟩ := hi
        rw [List.mem_range] at hj
        omega
  · refine ⟨_, new_eq_some data size step h3, ?_⟩
    intro extra
    apply samples_stable
    · show 0 < step
      exact h1
    · show data.length - 0 ≤ data.length + extra
      omega
    · show data.length - 0 ≤ data.length
      omega

/-- Witness for C4 at the concrete input `"GAGAG"` with `size = 2`,
`step = 2`. -/
theorem sliding_window_safety_witness :
    (0 < 2 ∧ 2 ≤ 2 ∧ 2 ≤ ([71, 65, 71, 65, 71] : List ℕ).length) ∧
      ((∀ i ∈ newReadIndices 2, i < ([71, 65, 71, 65, 71] : List ℕ).length) ∧
      (∀ s : SlidingWindowAverage, s.data = [71, 65, 71, 65, 71] → Inv s →
        ∀ q s1, s.next = some (q, s1) →
          ∀ i ∈ nextReadIndices s,
            i < ([71, 65, 71, 65, 71] : List ℕ).length) ∧
      (∃ s0, SlidingWindowAverage.new [71, 65, 71, 65, 71] 2 2 = some s0 ∧
        ∀ extra,
          samples (([71, 65, 71, 65, 71] : List ℕ).length + extra) s0 =
            samples ([71, 65, 71, 65, 71] : List ℕ).length s0)) :=
  ⟨⟨by decide, by decide, by decide⟩,
   sliding_window_safety [71, 65, 71, 65, 71] 2 2
     (by decide) (by decide) (by decide)⟩

/-! ### Claim C2 -/

/-- The 25-byte test vector for the spec's boundary example: five `G` bytes
followed by twenty `A` bytes. -/
def seq25 : List ℕ := List.replicate 5 71 ++ List.replicate 20 65

/-- C2 (code-bug evidence): on a 25-byte sequence with `window_size = 10`
and `step = 5` the code emits exactly TWO samples — the ratios of the
windows `[5,15)` and `[10,20)`, both `0` on `seq25` — not the three samples
for `[0,10)`, `[5,15)`, `[10,20)` of the documented boundary rule.  In
particular the first window's ratio (`5/10` on `seq25`; its GC count is the
last conjunct) is never emitted. -/
theorem sample_count_25_10_5 :
    ∃ s0, SlidingWindowAverage.new seq25 10 5 = some s0 ∧
      samples 25 s0 = [0, 0] ∧ (samples 25 s0).length = 2 ∧
      gcCount (window seq25 0 10) = 5 := by
  have hsN : samplesN 25
      (⟨seq25, gcCount (window seq25 0 10), 0, 5, 10⟩ : SlidingWindowAverage)
        = [(0, 10), (0, 10)] := by decide
  refine ⟨_, new_eq_some seq25 10 5 (by decide), ?_, ?_, by decide⟩
  · rw [samples_eq_map_samplesN, hsN]
    norm_num
  · rw [samples_eq_map_samplesN, hsN]
    norm_num

/-! ### Claim C3 -/

/-- C3 (code-bug evidence): construction does not fail cleanly with a
value-returned error: with `window_size > length` the first-window summation
indexes out of bounds (a panic, the modelled `none` — `new` has no error
return value at all), and with `step = 0` construction succeeds and the
resulting iterator emits a sample without ever advancing its left edge, so
that configuration is not rejected anywhere. -/
theorem new_rejects_nothing_cleanly :
    SlidingWindowAverage.new (List.replicate 4 71) 5 1 = none ∧
      ∃ s0, SlidingWindowAverage.new (List.replicate 4 71) 2 0 = some s0 ∧
        s0.step = 0 ∧ ∃ q s1, s0.next = some (q, s1) ∧ s1.idx = s0.idx := by
  refine ⟨by decide, _, new_eq_some (List.replicate 4 71) 2 0 (by decide),
    rfl, ?_⟩
  exact ⟨_, _, next_guard_some _ (by decide), rfl⟩

/-! ### Claim C10 -/

/-- C10: the window whose GC count `new` computes is never emitted — each
`next()` advances the left edge by `step` before emitting — so the `i`-th
emitted sample (0-based) is the GC ratio of the window starting at byte
`(i+1)·step`, while the plot series pairs that same sample with x-coordinate
`i·step`: every plotted point sits one window start behind the window its
value was computed from. -/
theorem samples_lag_plot_positions (data : List ℕ) (size step : ℕ)
    (h1 : 0 < step) (h2 : step ≤ size) (h3 : size ≤ data.length) :
    ∃ s0, SlidingWindowAverage.new data size step = some s0 ∧
      (∀ fuel i, i < (samples fuel s0).length →
        (samples fuel s0)[i]? = some
          ((gcCount (window data ((i + 1) * step) size) : ℚ) / (size : ℚ))) ∧
      (∃ pts, plotSeries data size step = some pts ∧
        pts.length = (samples (data.length + 1) s0).length ∧
        ∀ i, i < pts.length → pts[i]? = some (i * step,
          (gcCount (window data ((i + 1) * step) size) : ℚ) / (size : ℚ))) := by
  have hnew := new_eq_some data size step h3
  have hInv : Inv (⟨data, gcCount (window data 0 size), 0, step, size⟩ :
      SlidingWindowAverage) := ⟨h1, h2, by simpa using h3, rfl⟩
  refine ⟨_, hnew, ?_, ?_⟩
  · intro fuel i hi
    have h := samples_getElem? fuel _ hInv i hi
    simpa using h
  · have hys : plotSeries data size step = some
        (((List.range ((samples (data.length + 1)
            (⟨data, gcCount (window data 0 size), 0, step, size⟩ :
              SlidingWindowAverage)).length)).map (fun i => i * step)).zip
          (samples (data.length + 1)
            (⟨data, gcCount (window data 0 size), 0, step, size⟩ :
              SlidingWindowAverage))) := by
      unfold plotSeries
      rw [hnew]
      rfl
    refine ⟨_, hys, ?_, ?_⟩
    · rw [List.length_zip, List.length_map, List.length_range]
      exact Nat.min_self _
    · intro i hi
      have hilen : i < (samples (data.length + 1)
          (⟨data, gcCount (window data 0 size), 0, step, size⟩ :
            SlidingWindowAverage)).length := by
        rw [List.length_zip, List.length_map, List.length_range,
          Nat.min_self] at hi
        exact hi
      apply getElem?_zip
      · rw [List.getElem?_map, List.getElem?_range hilen]
        rfl
      · have h := samples_getElem? (data.length + 1) _ hInv i hilen
        simpa using h

/-- Witness for C10 at the concrete input `"GCAT"` with `size = 2`,
`step = 1`. -/
theorem samples_lag_plot_positions_witness :
    (0 < 1 ∧ 1 ≤ 2 ∧ 2 ≤ ([71, 67, 65, 84] : List ℕ).length) ∧
      (∃ s0, SlidingWindowAverage.new [71, 67, 65, 84] 2 1 = some s0 ∧
        (∀ fuel i, i < (samples fuel s0).length →
          (samples fuel s0)[i]? = some
            ((gcCount (window [71, 67, 65, 84] ((i + 1) * 1) 2) : ℚ) /
              ((2 : ℕ) : ℚ))) ∧
        (∃ pts, plotSeries [71, 67, 65, 84] 2 1 = some pts ∧
          pts.length =
            (samples (([71, 67, 65, 84] : List ℕ).length + 1) s0).length ∧
          ∀ i, i < pts.length → pts[i]? = some (i * 1,
            (gcCount (window [71, 67, 65, 84] ((i + 1) * 1) 2) : ℚ) /
              ((2 : ℕ) : ℚ)))) :=
  ⟨⟨by decide, by decide, by decide⟩,
   samples_lag_plot_positions [71, 67, 65, 84] 2 1
     (by decide) (by decide) (by decide)⟩

/-! ### Claim C9 -/

/-- C9 (code-bug evidence): for each parsed record `main` prints only the
header line `[<identifier>] <description>`; the `  - GC Content: {:.2}%`
line is commented out in the source (and the commented call names a
nonexistent `get_gc_content`), so no GC percentage line is printed.  The
ratio that line would print for `"GGCCAATT"` is exactly `1/2` (50.00%), as
the last conjunct shows. -/
theorem record_text_output_missing_gc_line :
    recordTextOutput "seq1" "desc" = ["[seq1] desc"] ∧
      (∀ id desc : String, (recordTextOutput id desc).length = 1) ∧
      get_total_gc_content [71, 71, 67, 67, 65, 65, 84, 84] =
        F64.val (1 / 2) := by
  refine ⟨rfl, fun _ _ => rfl, ?_⟩
  rw [get_total_gc_content_pos [71, 71, 67, 67, 65, 65, 84, 84] (by decide)]
  have hg : (count_bases [71, 71, 67, 67, 65, 65, 84, 84]).g = 2 := by decide
  have hc : (count_bases [71, 71, 67, 67, 65, 65, 84, 84]).c = 2 := by decide
  have ha : (count_bases [71, 71, 67, 67, 65, 65, 84, 84]).a = 2 := by decide
  have ht : (count_bases [71, 71, 67, 67, 65, 65, 84, 84]).t = 2 := by decide
  rw [hg, hc, ha, ht]
  congr 1
  norm_num

end GcContent
